import Mathlib

/-!
# Chessington move generation: a shallow embedding

This file embeds the move-generation engine of the Chessington repository
(`chessington/engine/pieces.py`) in Lean 4 and proves the properties of its
specification.

The repository ships only `pieces.py` (the move generator) and its test suite;
the supporting data structures (`Square`, `Player` in `data.py`, `Board` in
`board.py`) are external collaborators described by the specification, and are
modelled here from the specification's words (each such definition is marked
`Modelled from the spec:` in its doc comment).  The six piece classes of
`pieces.py` are embedded faithfully: coordinates are unbounded integers, the
fallible operations (`Square.at`, `Board.find_piece`, and everything built on
them) return `Except ChessError`, and the `while` walks of the sliding pieces
are embedded with a fuel of 8, which is never exhausted when the walk starts
from an on-board square.
-/

/-- Modelled from the spec: the two players, `{FIRST, SECOND}` (white/black),
defining move direction for pawns and friend/foe determination (`Player` of the
missing `data.py`). -/
inductive Player where
  | WHITE : Player
  | BLACK : Player
deriving DecidableEq, Repr

/-- The six piece variants of `pieces.py`. -/
inductive PieceKind where
  | Pawn : PieceKind
  | Knight : PieceKind
  | Bishop : PieceKind
  | Rook : PieceKind
  | Queen : PieceKind
  | King : PieceKind
deriving DecidableEq, Repr

/-- A piece: an owning player and a kind, plus an identity tag mirroring Python
object identity, which `Board.find_piece` compares by (`board.find_piece(self)`
uses `is`). -/
structure Piece where
  id : Nat
  kind : PieceKind
  player : Player
deriving DecidableEq, Repr

/-- Modelled from the spec: a square is an immutable `(row, col)` pair
(`Square` of the missing `data.py`).  Coordinates are integers; validity
(each in `[0,7]`) is enforced by the constructor `Square.at`, not by the type. -/
structure Square where
  row : Int
  col : Int
deriving DecidableEq, Repr

/-- Modelled from the spec: the error taxonomy of §7 — invalid square
construction and piece-not-found. -/
inductive ChessError where
  | OutOfBoundsError : ChessError
  | PieceNotFoundError : ChessError
deriving DecidableEq, Repr

instance {ε α : Type} [DecidableEq ε] [DecidableEq α] : DecidableEq (Except ε α)
  | .ok a, .ok b => if h : a = b then .isTrue (by rw [h]) else .isFalse (by simp [h])
  | .ok _, .error _ => .isFalse (by simp)
  | .error _, .ok _ => .isFalse (by simp)
  | .error e, .error f => if h : e = f then .isTrue (by rw [h]) else .isFalse (by simp [h])

/-- The on-board condition for a coordinate pair: both in `[0,7]`. -/
def bounds_ok (row col : Int) : Prop :=
  0 ≤ row ∧ row < 8 ∧ 0 ≤ col ∧ col < 8

instance (row col : Int) : Decidable (bounds_ok row col) := by
  unfold bounds_ok; infer_instance

/-- Modelled from the spec: `Square.at(row, col)` constructs the square, and
constructing a square outside `[0,7]×[0,7]` must fail with an
`OutOfBoundsError` — never silently clamp or wrap (§7). -/
def Square.at (row col : Int) : Except ChessError Square :=
  if bounds_ok row col then .ok ⟨row, col⟩ else .error .OutOfBoundsError

/-- Modelled from the spec: the board is a mapping from `Square` to an optional
`Piece` (occupancy), at most one piece per square (`Board` of the missing
`board.py`). -/
structure Board where
  occupant : Square → Option Piece

/-- Modelled from the spec: `Board.empty()` constructs a board with no
pieces. -/
def Board.empty : Board := ⟨fun _ => none⟩

/-- Modelled from the spec: `Board.get_piece(square)` — occupancy lookup, a
total function that never raises. -/
def Board.get_piece (b : Board) (square : Square) : Option Piece :=
  b.occupant square

/-- Modelled from the spec: `Board.set_piece(square, piece)` places a piece,
overwriting any occupant. -/
def Board.set_piece (b : Board) (square : Square) (piece : Piece) : Board :=
  ⟨fun sq => if sq = square then some piece else b.occupant sq⟩

/-- The 64 squares of the board in row-major order, the order in which
`find_piece` scans. -/
def allSquares : List Square :=
  (List.range 8).flatMap fun (r : Nat) =>
    (List.range 8).map fun (c : Nat) => ⟨(r : Int), (c : Int)⟩

/-- The scan underlying `find_piece`: return the first square of the list whose
occupant is the given piece. -/
def find_scan (b : Board) (piece : Piece) : List Square → Except ChessError Square
  | [] => .error .PieceNotFoundError
  | sq :: rest => if b.get_piece sq = some piece then .ok sq else find_scan b piece rest

/-- Modelled from the spec: `Board.find_piece(piece)` — reverse lookup by piece
identity over the 8×8 grid; fails with a `PieceNotFoundError` for a piece
absent from the board (§6, §7). -/
def Board.find_piece (b : Board) (piece : Piece) : Except ChessError Square :=
  find_scan b piece allSquares

/-- Modelled from the spec: `Board.move_piece(fromSquare, toSquare)` relocates
whatever occupies `fromSquare` to `toSquare`, clearing `fromSquare` and
overwriting `toSquare` (§6). -/
def Board.move_piece (b : Board) (fromSquare toSquare : Square) : Board :=
  let moved := b.occupant fromSquare
  ⟨fun sq => if sq = toSquare then moved else if sq = fromSquare then none else b.occupant sq⟩

/-- `Piece.move_to` of `pieces.py`: locate this piece's current square and
instruct the board to move whatever is there to the given square,
unconditionally. -/
def Piece.move_to (self : Piece) (board : Board) (new_square : Square) :
    Except ChessError Board :=
  match board.find_piece self with
  | .error e => .error e
  | .ok current_square => .ok (board.move_piece current_square new_square)

/-! ## Pawn (`Pawn.get_available_moves` of `pieces.py`) -/

namespace Pawn

/-- `Pawn.get_available_moves`: one square forward if empty, and two squares
forward from the starting row if both squares are empty.  `direction` is `1`
for white and `-1` for black; the starting row is `1` for white and `6` for
black. -/
def get_available_moves (self : Piece) (board : Board) :
    Except ChessError (List Square) :=
  match board.find_piece self with
  | .error e => .error e
  | .ok current_square =>
    let direction : Int := if self.player = .WHITE then 1 else -1
    let starting_row : Int := if self.player = .WHITE then 1 else 6
    match Square.at (current_square.row + direction) current_square.col with
    | .error e => .error e
    | .ok one_forward =>
      if board.get_piece one_forward = none then
        if current_square.row = starting_row then
          match Square.at (current_square.row + 2 * direction) current_square.col with
          | .error e => .error e
          | .ok two_forward =>
            if board.get_piece two_forward = none then
              .ok [one_forward, two_forward]
            else
              .ok [one_forward]
        else
          .ok [one_forward]
      else
        .ok []

end Pawn

/-! ## Stepping pieces (Knight, King) -/

/-- The 8 L-shaped knight offsets, in the order of `pieces.py`. -/
def knightJumps : List (Int × Int) :=
  [(-2, -1), (-2, 1), (-1, -2), (-1, 2), (1, -2), (1, 2), (2, -1), (2, 1)]

/-- The 8 king offsets, in the order of `pieces.py`. -/
def kingDirections : List (Int × Int) :=
  [(-1, -1), (-1, 0), (-1, 1), (0, -1), (0, 1), (1, -1), (1, 0), (1, 1)]

/-- The shared loop body of `Knight.get_available_moves` and
`King.get_available_moves`: for each offset in order, if the target is on the
board and empty or hostile, emit it. -/
def stepMoves (board : Board) (pl : Player) (current_square : Square) :
    List (Int × Int) → Except ChessError (List Square)
  | [] => .ok []
  | (dr, dc) :: rest =>
    let new_row := current_square.row + dr
    let new_col := current_square.col + dc
    if bounds_ok new_row new_col then
      match Square.at new_row new_col with
      | .error e => .error e
      | .ok target_square =>
        match stepMoves board pl current_square rest with
        | .error e => .error e
        | .ok ms =>
          match board.get_piece target_square with
          | none => .ok (target_square :: ms)
          | some q => if q.player ≠ pl then .ok (target_square :: ms) else .ok ms
    else
      stepMoves board pl current_square rest

namespace Knight

/-- `Knight.get_available_moves`: the 8 L-shaped jumps, kept when on the board
and empty or hostile. -/
def get_available_moves (self : Piece) (board : Board) :
    Except ChessError (List Square) :=
  match board.find_piece self with
  | .error e => .error e
  | .ok current_square => stepMoves board self.player current_square knightJumps

end Knight

namespace King

/-- `King.get_available_moves`: the 8 unit offsets, kept when on the board and
empty or hostile. -/
def get_available_moves (self : Piece) (board : Board) :
    Except ChessError (List Square) :=
  match board.find_piece self with
  | .error e => .error e
  | .ok current_square => stepMoves board self.player current_square kingDirections

end King

/-! ## Sliding pieces (Bishop, Rook, Queen) -/

/-- The 4 diagonal directions of `Bishop.get_available_moves`, in source
order. -/
def bishopDirections : List (Int × Int) :=
  [(-1, -1), (-1, 1), (1, -1), (1, 1)]

/-- The 4 straight directions of `Rook.get_available_moves`, in source
order. -/
def rookDirections : List (Int × Int) :=
  [(-1, 0), (1, 0), (0, -1), (0, 1)]

/-- The 8 queen directions, in source order: vertical, horizontal, then
diagonal. -/
def queenDirections : List (Int × Int) :=
  [(-1, 0), (1, 0), (0, -1), (0, 1), (-1, -1), (-1, 1), (1, -1), (1, 1)]

/-- The `while` walk shared by the sliding pieces: step repeatedly by
`(dr, dc)` from `(r, c)`; stop off board, emit and continue through empty
squares, emit a hostile occupant then stop, stop silently at a friendly
occupant.  The fuel bounds the loop; `8` is never exhausted from an on-board
start. -/
def slideWalk (board : Board) (pl : Player) (dr dc : Int) :
    Nat → Int → Int → Except ChessError (List Square)
  | 0, _, _ => .ok []
  | fuel + 1, r, c =>
    let new_row := r + dr
    let new_col := c + dc
    if bounds_ok new_row new_col then
      match Square.at new_row new_col with
      | .error e => .error e
      | .ok target_square =>
        match board.get_piece target_square with
        | none =>
          match slideWalk board pl dr dc fuel new_row new_col with
          | .error e => .error e
          | .ok rest => .ok (target_square :: rest)
        | some q => if q.player ≠ pl then .ok [target_square] else .ok []
    else
      .ok []

/-- The outer `for` loop of the sliding pieces: concatenate the walks of the
directions in order. -/
def slideAll (board : Board) (pl : Player) (current_square : Square) :
    List (Int × Int) → Except ChessError (List Square)
  | [] => .ok []
  | (dr, dc) :: rest =>
    match slideWalk board pl dr dc 8 current_square.row current_square.col with
    | .error e => .error e
    | .ok ms =>
      match slideAll board pl current_square rest with
      | .error e => .error e
      | .ok ms' => .ok (ms ++ ms')

namespace Bishop

/-- `Bishop.get_available_moves`: slide along the 4 diagonals. -/
def get_available_moves (self : Piece) (board : Board) :
    Except ChessError (List Square) :=
  match board.find_piece self with
  | .error e => .error e
  | .ok current_square => slideAll board self.player current_square bishopDirections

end Bishop

namespace Rook

/-- `Rook.get_available_moves`: slide along the 4 straight lines. -/
def get_available_moves (self : Piece) (board : Board) :
    Except ChessError (List Square) :=
  match board.find_piece self with
  | .error e => .error e
  | .ok current_square => slideAll board self.player current_square rookDirections

end Rook

namespace Queen

/-- `Queen.get_available_moves`: slide along all 8 directions. -/
def get_available_moves (self : Piece) (board : Board) :
    Except ChessError (List Square) :=
  match board.find_piece self with
  | .error e => .error e
  | .ok current_square => slideAll board self.player current_square queenDirections

end Queen

/-- The dynamic dispatch of `piece.get_available_moves(board)`: each variant
overrides the abstract method of `Piece`. -/
def Piece.get_available_moves (self : Piece) (board : Board) :
    Except ChessError (List Square) :=
  match self.kind with
  | .Pawn => Pawn.get_available_moves self board
  | .Knight => Knight.get_available_moves self board
  | .Bishop => Bishop.get_available_moves self board
  | .Rook => Rook.get_available_moves self board
  | .Queen => Queen.get_available_moves self board
  | .King => King.get_available_moves self board

/-- A square on which a piece of player `pl` may land: empty, or holding a
hostile occupant. -/
def can_land (board : Board) (pl : Player) (t : Square) : Prop :=
  board.get_piece t = none ∨ ∃ q, board.get_piece t = some q ∧ q.player ≠ pl
/-- The direction set of each sliding kind, as listed in `pieces.py` (empty
for the non-sliding kinds). -/
def slideDirections : PieceKind → List (Int × Int)
  | .Bishop => bishopDirections
  | .Rook => rookDirections
  | .Queen => queenDirections
  | _ => []
/-- The offset set of each stepping kind, as listed in `pieces.py` (empty for
the non-stepping kinds). -/
def stepOffsets : PieceKind → List (Int × Int)
  | .Knight => knightJumps
  | .King => kingDirections
  | _ => []
/-- The pawn's marching direction: `+1` row for the first player (WHITE), `-1`
for the second (BLACK), exactly the `direction` of `Pawn.get_available_moves`. -/
def pawn_direction (pl : Player) : Int := if pl = .WHITE then 1 else -1
/-- The pawn's nominal starting row: `1` for WHITE, `6` for BLACK, exactly the
`starting_row` of `Pawn.get_available_moves`. -/
def pawn_starting_row (pl : Player) : Int := if pl = .WHITE then 1 else 6

/-! ## State-threaded embedding (for the frame claims)

The generator is embedded once more in explicit state-passing style: every
interaction with the board or the piece threads a state `(Board × Piece)`
(the board and the queried piece `self`), so that a mutation anywhere in the
code would surface in the returned state.  The query primitives return the
state unchanged — the spec's contract that occupancy lookups are pure reads
(§3, §5) — while `move_pieceS` genuinely updates the board component. -/

/-- Modelled from the spec: `get_piece` is a pure occupancy lookup — it
returns the state unchanged. -/
def get_pieceS (sq : Square) (st : Board × Piece) :
    Option Piece × (Board × Piece) :=
  (st.1.get_piece sq, st)

/-- Modelled from the spec: `find_piece` is a pure reverse lookup — it
returns the state unchanged. -/
def find_pieceS (p : Piece) (st : Board × Piece) :
    Except ChessError Square × (Board × Piece) :=
  (st.1.find_piece p, st)

/-- `move_piece`, threaded: the board component of the state changes. -/
def move_pieceS (fromSquare toSquare : Square) (st : Board × Piece) :
    Board × Piece :=
  (st.1.move_piece fromSquare toSquare, st.2)

/-- `Piece.move_to`, threaded: find, then update the board. -/
def move_toS (new_square : Square) (st : Board × Piece) :
    Except ChessError Unit × (Board × Piece) :=
  match find_pieceS st.2 st with
  | (.error e, st0) => (.error e, st0)
  | (.ok current_square, st0) => (.ok (), move_pieceS current_square new_square st0)

/-- The stepping loop, threaded. -/
def stepMovesS (pl : Player) (current_square : Square) :
    List (Int × Int) → (Board × Piece) →
      Except ChessError (List Square) × (Board × Piece)
  | [], st => (.ok [], st)
  | (dr, dc) :: rest, st =>
    if bounds_ok (current_square.row + dr) (current_square.col + dc) then
      match Square.at (current_square.row + dr) (current_square.col + dc) with
      | .error e => (.error e, st)
      | .ok target_square =>
        match stepMovesS pl current_square rest st with
        | (.error e, st1) => (.error e, st1)
        | (.ok ms, st1) =>
          match get_pieceS target_square st1 with
          | (none, st2) => (.ok (target_square :: ms), st2)
          | (some q, st2) =>
            if q.player ≠ pl then (.ok (target_square :: ms), st2) else (.ok ms, st2)
    else stepMovesS pl current_square rest st

/-- The sliding walk, threaded. -/
def slideWalkS (pl : Player) (dr dc : Int) :
    Nat → Int → Int → (Board × Piece) →
      Except ChessError (List Square) × (Board × Piece)
  | 0, _, _, st => (.ok [], st)
  | fuel + 1, r, c, st =>
    if bounds_ok (r + dr) (c + dc) then
      match Square.at (r + dr) (c + dc) with
      | .error e => (.error e, st)
      | .ok target_square =>
        match get_pieceS target_square st with
        | (none, st1) =>
          match slideWalkS pl dr dc fuel (r + dr) (c + dc) st1 with
          | (.error e, st2) => (.error e, st2)
          | (.ok rest, st2) => (.ok (target_square :: rest), st2)
        | (some q, st1) =>
          if q.player ≠ pl then (.ok [target_square], st1) else (.ok [], st1)
    else (.ok [], st)

/-- The outer sliding loop, threaded. -/
def slideAllS (pl : Player) (current_square : Square) :
    List (Int × Int) → (Board × Piece) →
      Except ChessError (List Square) × (Board × Piece)
  | [], st => (.ok [], st)
  | (dr, dc) :: rest, st =>
    match slideWalkS pl dr dc 8 current_square.row current_square.col st with
    | (.error e, st1) => (.error e, st1)
    | (.ok ms, st1) =>
      match slideAllS pl current_square rest st1 with
      | (.error e, st2) => (.error e, st2)
      | (.ok ms2, st2) => (.ok (ms ++ ms2), st2)

/-- `Pawn.get_available_moves`, threaded. -/
def pawn_get_available_movesS (st : Board × Piece) :
    Except ChessError (List Square) × (Board × Piece) :=
  match find_pieceS st.2 st with
  | (.error e, st0) => (.error e, st0)
  | (.ok current_square, st0) =>
    let direction : Int := if st0.2.player = .WHITE then 1 else -1
    let starting_row : Int := if st0.2.player = .WHITE then 1 else 6
    match Square.at (current_square.row + direction) current_square.col with
    | .error e => (.error e, st0)
    | .ok one_forward =>
      match get_pieceS one_forward st0 with
      | (none, st1) =>
        if current_square.row = starting_row then
          match Square.at (current_square.row + 2 * direction) current_square.col with
          | .error e => (.error e, st1)
          | .ok two_forward =>
            match get_pieceS two_forward st1 with
            | (none, st2) => (.ok [one_forward, two_forward], st2)
            | (some _, st2) => (.ok [one_forward], st2)
        else (.ok [one_forward], st1)
      | (some _, st1) => (.ok [], st1)

/-- `get_available_moves`, threaded: dispatch on the kind of the piece in the
state, find it, and run its rule, threading the state throughout. -/
def get_available_movesS (st : Board × Piece) :
    Except ChessError (List Square) × (Board × Piece) :=
  match st.2.kind with
  | .Pawn => pawn_get_available_movesS st
  | .Knight =>
    match find_pieceS st.2 st with
    | (.error e, st0) => (.error e, st0)
    | (.ok cs, st0) => stepMovesS st0.2.player cs knightJumps st0
  | .King =>
    match find_pieceS st.2 st with
    | (.error e, st0) => (.error e, st0)
    | (.ok cs, st0) => stepMovesS st0.2.player cs kingDirections st0
  | .Bishop =>
    match find_pieceS st.2 st with
    | (.error e, st0) => (.error e, st0)
    | (.ok cs, st0) => slideAllS st0.2.player cs bishopDirections st0
  | .Rook =>
    match find_pieceS st.2 st with
    | (.error e, st0) => (.error e, st0)
    | (.ok cs, st0) => slideAllS st0.2.player cs rookDirections st0
  | .Queen =>
    match find_pieceS st.2 st with
    | (.error e, st0) => (.error e, st0)
    | (.ok cs, st0) => slideAllS st0.2.player cs queenDirections st0

/-! ## Basic lemmas about the spec-modelled collaborators -/

/-- `Square.at` succeeds exactly on on-board coordinates, returning the raw
pair. -/
theorem Square.at_ok {r c : Int} (h : bounds_ok r c) : Square.at r c = .ok ⟨r, c⟩ := by
  simp [Square.at, h]

/-- A successful scan returns a scanned square that holds the piece. -/
theorem find_scan_ok {b : Board} {p : Piece} {l : List Square} {s : Square}
    (h : find_scan b p l = .ok s) : s ∈ l ∧ b.get_piece s = some p := by
  induction l with
  | nil => simp [find_scan] at h
  | cons sq rest ih =>
    rw [find_scan] at h
    split at h
    · obtain rfl : sq = s := by simpa using h
      exact ⟨List.mem_cons_self _ _, by assumption⟩
    · obtain ⟨h1, h2⟩ := ih h
      exact ⟨List.mem_cons_of_mem _ h1, h2⟩

/-- A scan over squares none of which hold the piece fails with
`PieceNotFoundError`. -/
theorem find_scan_error {b : Board} {p : Piece} {l : List Square}
    (h : ∀ sq ∈ l, b.get_piece sq ≠ some p) :
    find_scan b p l = .error .PieceNotFoundError := by
  induction l with
  | nil => rfl
  | cons sq rest ih =>
    rw [find_scan, if_neg (h sq (List.mem_cons_self _ _))]
    exact ih fun t ht => h t (List.mem_cons_of_mem _ ht)

/-- Every square of the row-major enumeration is on the board. -/
theorem mem_allSquares {s : Square} (h : s ∈ allSquares) : bounds_ok s.row s.col := by
  unfold allSquares at h
  rw [List.mem_flatMap] at h
  obtain ⟨r, hrm, h⟩ := h
  rw [List.mem_map] at h
  obtain ⟨c, hcm, rfl⟩ := h
  rw [List.mem_range] at hrm hcm
  exact ⟨by simp only []; omega, by simp only []; omega, by simp only []; omega,
    by simp only []; omega⟩

/-- A successful `find_piece` returns an on-board square that holds the
piece. -/
theorem find_piece_ok {b : Board} {p : Piece} {s : Square}
    (h : b.find_piece p = .ok s) :
    bounds_ok s.row s.col ∧ b.get_piece s = some p := by
  obtain ⟨h1, h2⟩ := find_scan_ok h
  exact ⟨mem_allSquares h1, h2⟩

/-- `find_piece` on a piece absent from the board fails with
`PieceNotFoundError`. -/
theorem find_piece_absent {b : Board} {p : Piece}
    (h : ∀ sq, b.get_piece sq ≠ some p) :
    b.find_piece p = .error .PieceNotFoundError :=
  find_scan_error fun sq _ => h sq

/-! ## Stepping-piece lemmas -/


/-- `stepMoves` never fails, emits at most one move per offset, and emits
exactly the on-board offset targets that are empty or hostile. -/
theorem stepMoves_spec (board : Board) (pl : Player) (cs : Square) :
    ∀ offs : List (Int × Int), ∃ ms, stepMoves board pl cs offs = .ok ms ∧
      ms.length ≤ offs.length ∧
      ∀ t, t ∈ ms ↔ ∃ o ∈ offs, t = ⟨cs.row + o.1, cs.col + o.2⟩ ∧
        bounds_ok t.row t.col ∧ can_land board pl t := by
  intro offs
  induction offs with
  | nil => exact ⟨[], rfl, by simp, by simp⟩
  | cons o rest ih =>
    obtain ⟨ms, hms, hlen, hmem⟩ := ih
    obtain ⟨dr, dc⟩ := o
    by_cases hb : bounds_ok (cs.row + dr) (cs.col + dc)
    · cases hocc : board.get_piece ⟨cs.row + dr, cs.col + dc⟩ with
      | none =>
        have hstep : stepMoves board pl cs ((dr, dc) :: rest) =
            .ok (⟨cs.row + dr, cs.col + dc⟩ :: ms) := by
          rw [stepMoves, if_pos hb, Square.at_ok hb, hms]
          simp only [hocc]
        refine ⟨_, hstep, by simpa using Nat.succ_le_succ hlen, fun t => ?_⟩
        constructor
        · intro ht
          rcases List.mem_cons.mp ht with rfl | ht
          · exact ⟨(dr, dc), List.mem_cons_self _ _, rfl, hb, Or.inl hocc⟩
          · obtain ⟨o, ho, h1, h2, h3⟩ := (hmem t).mp ht
            exact ⟨o, List.mem_cons_of_mem _ ho, h1, h2, h3⟩
        · rintro ⟨o, ho, h1, h2, h3⟩
          rcases List.mem_cons.mp ho with rfl | ho
          · exact h1 ▸ List.mem_cons_self _ _
          · exact List.mem_cons_of_mem _ ((hmem t).mpr ⟨o, ho, h1, h2, h3⟩)
      | some q =>
        by_cases hq : q.player ≠ pl
        · have hstep : stepMoves board pl cs ((dr, dc) :: rest) =
              .ok (⟨cs.row + dr, cs.col + dc⟩ :: ms) := by
            rw [stepMoves, if_pos hb, Square.at_ok hb, hms]
            simp only [hocc, if_pos hq]
          refine ⟨_, hstep, by simpa using Nat.succ_le_succ hlen, fun t => ?_⟩
          constructor
          · intro ht
            rcases List.mem_cons.mp ht with rfl | ht
            · exact ⟨(dr, dc), List.mem_cons_self _ _, rfl, hb, Or.inr ⟨q, hocc, hq⟩⟩
            · obtain ⟨o, ho, h1, h2, h3⟩ := (hmem t).mp ht
              exact ⟨o, List.mem_cons_of_mem _ ho, h1, h2, h3⟩
          · rintro ⟨o, ho, h1, h2, h3⟩
            rcases List.mem_cons.mp ho with rfl | ho
            · exact h1 ▸ List.mem_cons_self _ _
            · exact List.mem_cons_of_mem _ ((hmem t).mpr ⟨o, ho, h1, h2, h3⟩)
        · have hstep : stepMoves board pl cs ((dr, dc) :: rest) = .ok ms := by
            rw [stepMoves, if_pos hb, Square.at_ok hb, hms]
            simp only [hocc, if_neg hq]
          push_neg at hq
          refine ⟨_, hstep, Nat.le_succ_of_le hlen, fun t => ?_⟩
          constructor
          · intro ht
            obtain ⟨o, ho, h1, h2, h3⟩ := (hmem t).mp ht
            exact ⟨o, List.mem_cons_of_mem _ ho, h1, h2, h3⟩
          · rintro ⟨o, ho, h1, h2, h3⟩
            rcases List.mem_cons.mp ho with rfl | ho
            · subst h1
              rcases h3 with h3 | ⟨q', hq', hne⟩
              · rw [hocc] at h3; cases h3
              · rw [hocc] at hq'
                cases hq'
                exact absurd hq hne
            · exact (hmem t).mpr ⟨o, ho, h1, h2, h3⟩
    · have hstep : stepMoves board pl cs ((dr, dc) :: rest) = .ok ms := by
        rw [stepMoves, if_neg hb, hms]
      refine ⟨_, hstep, Nat.le_succ_of_le hlen, fun t => ?_⟩
      constructor
      · intro ht
        obtain ⟨o, ho, h1, h2, h3⟩ := (hmem t).mp ht
        exact ⟨o, List.mem_cons_of_mem _ ho, h1, h2, h3⟩
      · rintro ⟨o, ho, h1, h2, h3⟩
        rcases List.mem_cons.mp ho with rfl | ho
        · subst h1; exact absurd h2 hb
        · exact (hmem t).mpr ⟨o, ho, h1, h2, h3⟩

/-! ## Sliding-piece lemmas -/

/-- `slideWalk` never fails, and only emits on-board squares. -/
theorem slideWalk_ok (board : Board) (pl : Player) (dr dc : Int) :
    ∀ fuel r c, ∃ ms, slideWalk board pl dr dc fuel r c = .ok ms ∧
      ∀ t ∈ ms, bounds_ok t.row t.col := by
  intro fuel
  induction fuel with
  | zero => exact fun r c => ⟨[], rfl, by simp⟩
  | succ fuel ih =>
    intro r c
    by_cases hb : bounds_ok (r + dr) (c + dc)
    · cases hocc : board.get_piece ⟨r + dr, c + dc⟩ with
      | none =>
        obtain ⟨ms, hms, hbd⟩ := ih (r + dr) (c + dc)
        refine ⟨⟨r + dr, c + dc⟩ :: ms, ?_, ?_⟩
        · rw [slideWalk, if_pos hb, Square.at_ok hb]
          simp only [hocc, hms]
        · intro t ht
          rcases List.mem_cons.mp ht with rfl | ht
          · exact hb
          · exact hbd t ht
      | some q =>
        by_cases hq : q.player ≠ pl
        · refine ⟨[⟨r + dr, c + dc⟩], ?_, ?_⟩
          · rw [slideWalk, if_pos hb, Square.at_ok hb]
            simp only [hocc, if_pos hq]
          · intro t ht
            rcases List.mem_singleton.mp ht with rfl
            exact hb
        · refine ⟨[], ?_, by simp⟩
          rw [slideWalk, if_pos hb, Square.at_ok hb]
          simp only [hocc, if_neg hq]
    · refine ⟨[], ?_, by simp⟩
      rw [slideWalk, if_neg hb]

/-- Every square emitted by `slideWalk` is the `k`-th square of the ray for
some `k ≥ 1`, reached through empty on-board squares, itself on board and
empty or hostile. -/
theorem slideWalk_sound (board : Board) (pl : Player) (dr dc : Int) :
    ∀ fuel r c ms, slideWalk board pl dr dc fuel r c = .ok ms →
      ∀ t ∈ ms, ∃ k : Nat, 1 ≤ k ∧ k ≤ fuel ∧
        t = ⟨r + k * dr, c + k * dc⟩ ∧
        (∀ j : Nat, 1 ≤ j → j < k → bounds_ok (r + j * dr) (c + j * dc) ∧
          board.get_piece ⟨r + j * dr, c + j * dc⟩ = none) ∧
        bounds_ok t.row t.col ∧ can_land board pl t := by
  intro fuel
  induction fuel with
  | zero =>
    intro r c ms hms t ht
    obtain rfl : ([] : List Square) = ms := by simpa [slideWalk] using hms
    simp at ht
  | succ fuel ih =>
    intro r c ms hms t ht
    by_cases hb : bounds_ok (r + dr) (c + dc)
    · rw [slideWalk, if_pos hb, Square.at_ok hb] at hms
      cases hocc : board.get_piece ⟨r + dr, c + dc⟩ with
      | none =>
        simp only [hocc] at hms
        cases hrec : slideWalk board pl dr dc fuel (r + dr) (c + dc) with
        | error e => rw [hrec] at hms; simp at hms
        | ok rest =>
          rw [hrec] at hms
          obtain rfl : (⟨r + dr, c + dc⟩ : Square) :: rest = ms := by simpa using hms
          rcases List.mem_cons.mp ht with rfl | ht
          · refine ⟨1, le_refl 1, by omega, by simp, ?_, hb, Or.inl hocc⟩
            intro j h1 h2; omega
          · obtain ⟨k, hk1, hkf, hteq, hpath, hbd, hcl⟩ := ih (r + dr) (c + dc) rest hrec t ht
            refine ⟨k + 1, by omega, by omega, ?_, ?_, hbd, hcl⟩
            · rw [hteq]
              simp only [Square.mk.injEq]
              constructor <;> push_cast <;> ring
            · intro j h1 h2
              rcases Nat.lt_or_ge j 2 with hj | hj
              · have : j = 1 := by omega
                subst this
                constructor
                · simpa using hb
                · simpa using hocc
              · obtain ⟨j', rfl⟩ : ∃ j', j = j' + 1 := ⟨j - 1, by omega⟩
                have hsh := hpath j' (by omega) (by omega)
                have hrow : r + (↑(j' + 1) : Int) * dr = r + dr + (↑j' : Int) * dr := by
                  push_cast; ring
                have hcol : c + (↑(j' + 1) : Int) * dc = c + dc + (↑j' : Int) * dc := by
                  push_cast; ring
                rw [hrow, hcol]
                exact hsh
      | some q =>
        by_cases hq : q.player ≠ pl
        · simp only [hocc, if_pos hq] at hms
          obtain rfl : [(⟨r + dr, c + dc⟩ : Square)] = ms := by simpa using hms
          rcases List.mem_singleton.mp ht with rfl
          refine ⟨1, le_refl 1, by omega, by simp, ?_, hb, Or.inr ⟨q, hocc, hq⟩⟩
          intro j h1 h2; omega
        · simp only [hocc, if_neg hq] at hms
          obtain rfl : ([] : List Square) = ms := by simpa using hms
          simp at ht
    · rw [slideWalk, if_neg hb] at hms
      obtain rfl : ([] : List Square) = ms := by simpa using hms
      simp at ht

/-- The `k`-th ray square is emitted by `slideWalk` whenever it is reached
through empty on-board squares, is itself on board, and is empty or hostile. -/
theorem slideWalk_complete (board : Board) (pl : Player) (dr dc : Int) :
    ∀ k fuel r c, 1 ≤ k → k ≤ fuel →
      (∀ j : Nat, 1 ≤ j → j < k → bounds_ok (r + j * dr) (c + j * dc) ∧
        board.get_piece ⟨r + j * dr, c + j * dc⟩ = none) →
      bounds_ok (r + k * dr) (c + k * dc) →
      can_land board pl ⟨r + k * dr, c + k * dc⟩ →
      ∀ ms, slideWalk board pl dr dc fuel r c = .ok ms →
        (⟨r + k * dr, c + k * dc⟩ : Square) ∈ ms := by
  intro k
  induction k with
  | zero => intro fuel r c h1; omega
  | succ k ihk =>
    intro fuel r c _ hkf hpath hin hcl ms hms
    obtain ⟨fuel', rfl⟩ : ∃ f, fuel = f + 1 := ⟨fuel - 1, by omega⟩
    rcases Nat.eq_zero_or_pos k with rfl | hk1
    · -- one step: the probed square is the target itself
      have hb : bounds_ok (r + dr) (c + dc) := by
        have := hin; simpa using this
      rw [slideWalk, if_pos hb, Square.at_ok hb] at hms
      have hone : (⟨r + ((0 + 1 : Nat) : Int) * dr, c + ((0 + 1 : Nat) : Int) * dc⟩ : Square) =
          ⟨r + dr, c + dc⟩ := by
        simp only [Square.mk.injEq]
        constructor <;> push_cast <;> ring
      rw [hone]
      rcases hcl with hnone | ⟨q, hq, hqp⟩
      · rw [hone] at hnone
        simp only [hnone] at hms
        cases hrec : slideWalk board pl dr dc fuel' (r + dr) (c + dc) with
        | error e => rw [hrec] at hms; simp at hms
        | ok rest =>
          rw [hrec] at hms
          obtain rfl : (⟨r + dr, c + dc⟩ : Square) :: rest = ms := by simpa using hms
          exact List.mem_cons_self _ _
      · rw [hone] at hq
        simp only [hq, if_pos hqp] at hms
        obtain rfl : [(⟨r + dr, c + dc⟩ : Square)] = ms := by simpa using hms
        exact List.mem_singleton.mpr rfl
    · -- more than one step: the first square of the path is empty, recurse
      obtain ⟨hb1, hocc1⟩ := hpath 1 (le_refl 1) (by omega)
      have hb : bounds_ok (r + dr) (c + dc) := by simpa using hb1
      have hocc : board.get_piece ⟨r + dr, c + dc⟩ = none := by simpa using hocc1
      rw [slideWalk, if_pos hb, Square.at_ok hb] at hms
      simp only [hocc] at hms
      cases hrec : slideWalk board pl dr dc fuel' (r + dr) (c + dc) with
      | error e => rw [hrec] at hms; simp at hms
      | ok rest =>
        rw [hrec] at hms
        obtain rfl : (⟨r + dr, c + dc⟩ : Square) :: rest = ms := by simpa using hms
        have hshift : ∀ j : Nat, r + dr + (↑j : Int) * dr = r + (↑(j + 1) : Int) * dr ∧
            c + dc + (↑j : Int) * dc = c + (↑(j + 1) : Int) * dc := by
          intro j; constructor <;> push_cast <;> ring
        have hmem : (⟨r + dr + (↑k : Int) * dr, c + dc + (↑k : Int) * dc⟩ : Square) ∈ rest := by
          refine ihk fuel' (r + dr) (c + dc) hk1 (by omega) ?_ ?_ ?_ rest hrec
          · intro j h1 h2
            rw [(hshift j).1, (hshift j).2]
            exact hpath (j + 1) (by omega) (by omega)
          · rw [(hshift k).1, (hshift k).2]
            exact hin
          · rw [(hshift k).1, (hshift k).2]
            exact hcl
        have heq : (⟨r + dr + (↑k : Int) * dr, c + dc + (↑k : Int) * dc⟩ : Square) =
            ⟨r + (↑(k + 1) : Int) * dr, c + (↑(k + 1) : Int) * dc⟩ := by
          simp only [Square.mk.injEq]
          constructor <;> push_cast <;> ring
        exact List.mem_cons_of_mem _ (heq ▸ hmem)

/-- `slideAll` never fails, and only emits on-board squares. -/
theorem slideAll_ok (board : Board) (pl : Player) (cs : Square) :
    ∀ dirs : List (Int × Int), ∃ ms, slideAll board pl cs dirs = .ok ms ∧
      ∀ t ∈ ms, bounds_ok t.row t.col := by
  intro dirs
  induction dirs with
  | nil => exact ⟨[], rfl, by simp⟩
  | cons d rest ih =>
    obtain ⟨ms, hms, hbd⟩ := ih
    obtain ⟨dr, dc⟩ := d
    obtain ⟨w, hw, hwbd⟩ := slideWalk_ok board pl dr dc 8 cs.row cs.col
    refine ⟨w ++ ms, ?_, ?_⟩
    · rw [slideAll, hw, hms]
    · intro t ht
      rcases List.mem_append.mp ht with ht | ht
      · exact hwbd t ht
      · exact hbd t ht

/-- `slideAll` distributes over appending direction lists. -/
theorem slideAll_append (board : Board) (pl : Player) (cs : Square) :
    ∀ (l1 l2 : List (Int × Int)) (ms1 ms2 : List Square),
      slideAll board pl cs l1 = .ok ms1 → slideAll board pl cs l2 = .ok ms2 →
      slideAll board pl cs (l1 ++ l2) = .ok (ms1 ++ ms2) := by
  intro l1
  induction l1 with
  | nil =>
    intro l2 ms1 ms2 h1 h2
    obtain rfl : ([] : List Square) = ms1 := by simpa [slideAll] using h1
    simpa using h2
  | cons d rest ih =>
    intro l2 ms1 ms2 h1 h2
    obtain ⟨dr, dc⟩ := d
    rw [slideAll] at h1
    cases hw : slideWalk board pl dr dc 8 cs.row cs.col with
    | error e => rw [hw] at h1; simp at h1
    | ok w =>
      rw [hw] at h1
      cases hrest : slideAll board pl cs rest with
      | error e => rw [hrest] at h1; simp at h1
      | ok msr =>
        rw [hrest] at h1
        obtain rfl : w ++ msr = ms1 := by simpa using h1
        rw [List.cons_append, slideAll, hw, ih l2 msr ms2 hrest h2]
        simp

/-- Every square emitted by `slideAll` comes from the walk of one of the
directions. -/
theorem slideAll_sound (board : Board) (pl : Player) (cs : Square) :
    ∀ (dirs : List (Int × Int)) (ms : List Square),
      slideAll board pl cs dirs = .ok ms →
      ∀ t ∈ ms, ∃ d ∈ dirs, ∃ w, slideWalk board pl d.1 d.2 8 cs.row cs.col = .ok w ∧
        t ∈ w := by
  intro dirs
  induction dirs with
  | nil =>
    intro ms hms t ht
    obtain rfl : ([] : List Square) = ms := by simpa [slideAll] using hms
    simp at ht
  | cons d rest ih =>
    intro ms hms t ht
    obtain ⟨dr, dc⟩ := d
    rw [slideAll] at hms
    cases hw : slideWalk board pl dr dc 8 cs.row cs.col with
    | error e => rw [hw] at hms; simp at hms
    | ok w =>
      rw [hw] at hms
      cases hrest : slideAll board pl cs rest with
      | error e => rw [hrest] at hms; simp at hms
      | ok msr =>
        rw [hrest] at hms
        obtain rfl : w ++ msr = ms := by simpa using hms
        rcases List.mem_append.mp ht with ht | ht
        · exact ⟨(dr, dc), List.mem_cons_self _ _, w, hw, ht⟩
        · obtain ⟨d', hd', w', hw', ht'⟩ := ih msr hrest t ht
          exact ⟨d', List.mem_cons_of_mem _ hd', w', hw', ht'⟩

/-- Every square of a direction's walk is emitted by `slideAll` over any
direction list containing that direction. -/
theorem slideAll_complete (board : Board) (pl : Player) (cs : Square) :
    ∀ (dirs : List (Int × Int)) (ms : List Square),
      slideAll board pl cs dirs = .ok ms →
      ∀ d ∈ dirs, ∀ w, slideWalk board pl d.1 d.2 8 cs.row cs.col = .ok w →
        ∀ t ∈ w, t ∈ ms := by
  intro dirs
  induction dirs with
  | nil => intro ms _ d hd; simp at hd
  | cons d0 rest ih =>
    intro ms hms d hd w hwd t ht
    obtain ⟨dr, dc⟩ := d0
    rw [slideAll] at hms
    cases hw : slideWalk board pl dr dc 8 cs.row cs.col with
    | error e => rw [hw] at hms; simp at hms
    | ok w0 =>
      rw [hw] at hms
      cases hrest : slideAll board pl cs rest with
      | error e => rw [hrest] at hms; simp at hms
      | ok msr =>
        rw [hrest] at hms
        obtain rfl : w0 ++ msr = ms := by simpa using hms
        rcases List.mem_cons.mp hd with rfl | hd
        · have : w0 = w := by
            rw [hwd] at hw
            have h' : w = w0 := by simpa using hw
            exact h'.symm
          subst this
          exact List.mem_append_left _ ht
        · exact List.mem_append_right _ (ih msr hrest d hd w hwd t ht)

/-! ## Direction-set lemmas -/


/-- Each sliding piece's `get_available_moves` is `find_piece` followed by
`slideAll` over its direction set. -/
theorem sliding_gam {p : Piece}
    (hk : p.kind = .Bishop ∨ p.kind = .Rook ∨ p.kind = .Queen) (board : Board) :
    p.get_available_moves board =
      match board.find_piece p with
      | .error e => .error e
      | .ok cs => slideAll board p.player cs (slideDirections p.kind) := by
  rcases hk with h | h | h <;>
    simp only [Piece.get_available_moves, h, slideDirections] <;> rfl

/-- Distinct unit directions trace disjoint rays from a common origin: equal
ray squares force the same direction and step count. -/
theorem ray_inj {s : Square} {d d' : Int × Int}
    (hd : d ∈ queenDirections) (hd' : d' ∈ queenDirections)
    {m k : Nat} (hm : 1 ≤ m) (hk : 1 ≤ k)
    (h : (⟨s.row + m * d.1, s.col + m * d.2⟩ : Square) =
      ⟨s.row + k * d'.1, s.col + k * d'.2⟩) :
    d = d' ∧ m = k := by
  simp only [queenDirections, List.mem_cons, List.not_mem_nil, or_false] at hd hd'
  rcases hd with rfl | rfl | rfl | rfl | rfl | rfl | rfl | rfl <;>
    rcases hd' with rfl | rfl | rfl | rfl | rfl | rfl | rfl | rfl <;>
      simp only [Square.mk.injEq] at h <;>
        obtain ⟨h1, h2⟩ := h <;>
          first
            | exact ⟨rfl, by omega⟩
            | exact absurd h1 (by omega)

/-- From an on-board origin, an on-board ray square is at most 7 steps out. -/
theorem ray_le_seven {s : Square} {d : Int × Int} (hd : d ∈ queenDirections) {k : Nat}
    (hs : bounds_ok s.row s.col)
    (ht : bounds_ok (s.row + k * d.1) (s.col + k * d.2)) : k ≤ 7 := by
  simp only [queenDirections, List.mem_cons, List.not_mem_nil, or_false] at hd
  unfold bounds_ok at hs ht
  rcases hd with rfl | rfl | rfl | rfl | rfl | rfl | rfl | rfl <;> dsimp only at ht <;> omega

/-- A ray square at `k ≥ 1` steps differs from the origin. -/
theorem ray_ne_start {s : Square} {d : Int × Int} (hd : d ∈ queenDirections) {k : Nat}
    (hk : 1 ≤ k) : (⟨s.row + k * d.1, s.col + k * d.2⟩ : Square) ≠ s := by
  simp only [queenDirections, List.mem_cons, List.not_mem_nil, or_false] at hd
  rcases hd with rfl | rfl | rfl | rfl | rfl | rfl | rfl | rfl <;> intro h <;>
    (have h1 := congrArg Square.row h) <;> (have h2 := congrArg Square.col h) <;>
      dsimp only at h1 h2 <;> omega

/-- The bishop directions are queen directions. -/
theorem bishop_sub_queen {d : Int × Int} (hd : d ∈ bishopDirections) :
    d ∈ queenDirections := by
  simp only [bishopDirections, List.mem_cons, List.not_mem_nil, or_false] at hd
  rcases hd with rfl | rfl | rfl | rfl <;> decide

/-- The rook directions are queen directions. -/
theorem rook_sub_queen {d : Int × Int} (hd : d ∈ rookDirections) :
    d ∈ queenDirections := by
  simp only [rookDirections, List.mem_cons, List.not_mem_nil, or_false] at hd
  rcases hd with rfl | rfl | rfl | rfl <;> decide

/-- Every sliding direction set is contained in the queen's. -/
theorem slideDirections_sub {k : PieceKind} {d : Int × Int}
    (hd : d ∈ slideDirections k) : d ∈ queenDirections := by
  cases k with
  | Bishop => exact bishop_sub_queen hd
  | Rook => exact rook_sub_queen hd
  | Queen => exact hd
  | Pawn => simp [slideDirections] at hd
  | Knight => simp [slideDirections] at hd
  | King => simp [slideDirections] at hd

/-- The queen's direction list is the rook's followed by the bishop's. -/
theorem queen_eq_rook_append_bishop :
    queenDirections = rookDirections ++ bishopDirections := rfl

/-! ## Error-propagation lemmas -/

/-- Inverting a successful `Square.at`. -/
theorem Square.at_ok_inv {r c : Int} {s : Square} (h : Square.at r c = .ok s) :
    s = ⟨r, c⟩ ∧ bounds_ok r c := by
  unfold Square.at at h
  split at h
  · refine ⟨?_, by assumption⟩
    have h' : (⟨r, c⟩ : Square) = s := by simpa using h
    exact h'.symm
  · simp at h

/-- Every variant's `get_available_moves` begins with `find_piece`: its
failure propagates. -/
theorem gam_find_error {b : Board} {p : Piece} {e : ChessError}
    (h : b.find_piece p = .error e) : p.get_available_moves b = .error e := by
  cases hk : p.kind <;>
    simp only [Piece.get_available_moves, hk, Pawn.get_available_moves,
      Knight.get_available_moves, Bishop.get_available_moves, Rook.get_available_moves,
      Queen.get_available_moves, King.get_available_moves, h]

/-- C6: for every piece absent from the board, `find_piece` — directly, or
transitively via `get_available_moves` or `move_to` — fails with
`PieceNotFoundError`. -/
theorem C6_absent_piece_not_found (b : Board) (p : Piece)
    (h : ∀ sq, b.get_piece sq ≠ some p) :
    b.find_piece p = .error .PieceNotFoundError ∧
    p.get_available_moves b = .error .PieceNotFoundError ∧
    ∀ t, p.move_to b t = .error .PieceNotFoundError := by
  have hf := find_piece_absent h
  refine ⟨hf, gam_find_error hf, fun t => ?_⟩
  rw [Piece.move_to, hf]

/-- Witness for C6: an empty board holds no white pawn, and all three
operations fail with `PieceNotFoundError` there. -/
theorem C6_absent_piece_not_found_witness :
    Board.empty.find_piece ⟨0, .Pawn, .WHITE⟩ = .error .PieceNotFoundError ∧
    Piece.get_available_moves ⟨0, .Pawn, .WHITE⟩ Board.empty =
      .error .PieceNotFoundError ∧
    Piece.move_to ⟨0, .Pawn, .WHITE⟩ Board.empty ⟨3, 3⟩ =
      .error .PieceNotFoundError := by
  have h := C6_absent_piece_not_found Board.empty ⟨0, .Pawn, .WHITE⟩
    (fun sq hsq => Option.noConfusion hsq)
  exact ⟨h.1, h.2.1, h.2.2 ⟨3, 3⟩⟩

/-- C7: `move_to` locates the piece's current square and moves its occupant to
the target unconditionally — for EVERY target square, with no check that the
target is among `get_available_moves`'s output. -/
theorem C7_move_to_unvalidated (b : Board) (p : Piece) (s t : Square)
    (h : b.find_piece p = .ok s) :
    p.move_to b t = .ok (b.move_piece s t) := by
  rw [Piece.move_to, h]

/-- Witness for C7: a white pawn at (1,4) is moved to (7,7), a square not
among its available moves, and `move_to` still succeeds. -/
theorem C7_move_to_unvalidated_witness :
    (Board.empty.set_piece ⟨1, 4⟩ ⟨0, .Pawn, .WHITE⟩).find_piece ⟨0, .Pawn, .WHITE⟩ =
      .ok ⟨1, 4⟩ ∧
    Piece.move_to ⟨0, .Pawn, .WHITE⟩ (Board.empty.set_piece ⟨1, 4⟩ ⟨0, .Pawn, .WHITE⟩) ⟨7, 7⟩ =
      .ok ((Board.empty.set_piece ⟨1, 4⟩ ⟨0, .Pawn, .WHITE⟩).move_piece ⟨1, 4⟩ ⟨7, 7⟩) :=
  ⟨by decide, C7_move_to_unvalidated _ _ _ ⟨7, 7⟩ (by decide)⟩

/-! ## Pawn lemmas (C2, C5) -/




theorem pawn_direction_ne_zero (pl : Player) : pawn_direction pl ≠ 0 := by
  cases pl <;> decide

/-- C2: for every pawn on the board whose move query succeeds, the square one
row ahead (in `pawn_direction`) is in the result iff it is unoccupied; the
square two rows ahead is in the result iff the one-step square is unoccupied,
the pawn sits on its nominal starting row, and the two-step square is
unoccupied; and nothing else (no diagonal captures) is in the result. -/
theorem C2_pawn_moves (b : Board) (p : Piece) (s : Square) (ms : List Square)
    (hk : p.kind = .Pawn) (hf : b.find_piece p = .ok s)
    (hm : p.get_available_moves b = .ok ms) :
    ((⟨s.row + pawn_direction p.player, s.col⟩ : Square) ∈ ms ↔
      b.get_piece ⟨s.row + pawn_direction p.player, s.col⟩ = none) ∧
    ((⟨s.row + 2 * pawn_direction p.player, s.col⟩ : Square) ∈ ms ↔
      (b.get_piece ⟨s.row + pawn_direction p.player, s.col⟩ = none ∧
       s.row = pawn_starting_row p.player ∧
       b.get_piece ⟨s.row + 2 * pawn_direction p.player, s.col⟩ = none)) ∧
    (∀ t ∈ ms, t = ⟨s.row + pawn_direction p.player, s.col⟩ ∨
      t = ⟨s.row + 2 * pawn_direction p.player, s.col⟩) := by
  have hdz := pawn_direction_ne_zero p.player
  simp only [pawn_direction, pawn_starting_row] at hdz ⊢
  simp only [Piece.get_available_moves, hk, Pawn.get_available_moves, hf] at hm
  generalize hd : (if p.player = Player.WHITE then (1 : Int) else -1) = d at hm hdz ⊢
  generalize hsr : (if p.player = Player.WHITE then (1 : Int) else 6) = sr at hm ⊢
  have hone_ne_two : (⟨s.row + 2 * d, s.col⟩ : Square) ≠ ⟨s.row + d, s.col⟩ := by
    intro h
    have h1 := congrArg Square.row h
    dsimp only at h1
    omega
  cases hat : Square.at (s.row + d) s.col with
  | error e => rw [hat] at hm; simp at hm
  | ok one' =>
    obtain ⟨rfl, hb1⟩ := Square.at_ok_inv hat
    simp only [hat] at hm
    by_cases h1 : b.get_piece ⟨s.row + d, s.col⟩ = none
    · rw [if_pos h1] at hm
      by_cases h2 : s.row = sr
      · rw [if_pos h2] at hm
        cases hat2 : Square.at (s.row + 2 * d) s.col with
        | error e => rw [hat2] at hm; simp at hm
        | ok two' =>
          obtain ⟨rfl, hb2⟩ := Square.at_ok_inv hat2
          simp only [hat2] at hm
          by_cases h3 : b.get_piece ⟨s.row + 2 * d, s.col⟩ = none
          · rw [if_pos h3] at hm
            obtain rfl : [(⟨s.row + d, s.col⟩ : Square), ⟨s.row + 2 * d, s.col⟩] = ms := by
              simpa using hm
            refine ⟨by simp [h1], ⟨fun _ => ⟨h1, h2, h3⟩, fun _ => by simp⟩, ?_⟩
            intro t ht
            rcases List.mem_cons.mp ht with rfl | ht
            · exact Or.inl rfl
            · exact Or.inr (List.mem_singleton.mp ht)
          · rw [if_neg h3] at hm
            obtain rfl : [(⟨s.row + d, s.col⟩ : Square)] = ms := by simpa using hm
            refine ⟨by simp [h1], ?_, ?_⟩
            · simp only [List.mem_singleton]
              constructor
              · intro h; exact absurd h hone_ne_two
              · rintro ⟨-, -, h3'⟩; exact absurd h3' h3
            · intro t ht
              exact Or.inl (List.mem_singleton.mp ht)
      · rw [if_neg h2] at hm
        obtain rfl : [(⟨s.row + d, s.col⟩ : Square)] = ms := by simpa using hm
        refine ⟨by simp [h1], ?_, ?_⟩
        · simp only [List.mem_singleton]
          constructor
          · intro h; exact absurd h hone_ne_two
          · rintro ⟨-, h2', -⟩; exact absurd h2' h2
        · intro t ht
          exact Or.inl (List.mem_singleton.mp ht)
    · rw [if_neg h1] at hm
      obtain rfl : ([] : List Square) = ms := by simpa using hm
      refine ⟨by simp [h1], ?_, by simp⟩
      simp only [List.not_mem_nil, false_iff]
      rintro ⟨h1', -, -⟩
      exact absurd h1' h1

/-- Witness for C2: a white pawn at (1,4) on an empty board yields
`[(2,4), (3,4)]`, and the one-step membership equivalence holds there. -/
theorem C2_pawn_moves_witness :
    ((⟨(⟨1, 4⟩ : Square).row + pawn_direction Player.WHITE,
        (⟨1, 4⟩ : Square).col⟩ : Square) ∈ ([⟨2, 4⟩, ⟨3, 4⟩] : List Square) ↔
      (Board.empty.set_piece ⟨1, 4⟩ ⟨0, .Pawn, .WHITE⟩).get_piece
        ⟨(⟨1, 4⟩ : Square).row + pawn_direction Player.WHITE,
          (⟨1, 4⟩ : Square).col⟩ = none) :=
  (C2_pawn_moves (Board.empty.set_piece ⟨1, 4⟩ ⟨0, .Pawn, .WHITE⟩) ⟨0, .Pawn, .WHITE⟩
    ⟨1, 4⟩ [⟨2, 4⟩, ⟨3, 4⟩] rfl (by decide) (by decide)).1

/-! ## Stepping claim (C3) -/


/-- C3: a stepping piece's moves are exactly the offset targets that are on
the board and empty or hostile, at most one per offset; in particular the
knight at (4,4) and (0,0) and the king at (4,4) on an empty board produce
exactly the expected squares. -/
theorem C3_stepping_moves :
    (∀ (b : Board) (p : Piece) (s : Square) (ms : List Square),
      (p.kind = .Knight ∨ p.kind = .King) → b.find_piece p = .ok s →
      p.get_available_moves b = .ok ms →
      (∀ t, t ∈ ms ↔ ∃ o ∈ stepOffsets p.kind,
        t = ⟨s.row + o.1, s.col + o.2⟩ ∧ bounds_ok t.row t.col ∧ can_land b p.player t) ∧
      ms.length ≤ (stepOffsets p.kind).length) ∧
    Piece.get_available_moves ⟨0, .Knight, .WHITE⟩
        (Board.empty.set_piece ⟨4, 4⟩ ⟨0, .Knight, .WHITE⟩) =
      .ok [⟨2, 3⟩, ⟨2, 5⟩, ⟨3, 2⟩, ⟨3, 6⟩, ⟨5, 2⟩, ⟨5, 6⟩, ⟨6, 3⟩, ⟨6, 5⟩] ∧
    Piece.get_available_moves ⟨0, .Knight, .WHITE⟩
        (Board.empty.set_piece ⟨0, 0⟩ ⟨0, .Knight, .WHITE⟩) =
      .ok [⟨1, 2⟩, ⟨2, 1⟩] ∧
    Piece.get_available_moves ⟨0, .King, .WHITE⟩
        (Board.empty.set_piece ⟨4, 4⟩ ⟨0, .King, .WHITE⟩) =
      .ok [⟨3, 3⟩, ⟨3, 4⟩, ⟨3, 5⟩, ⟨4, 3⟩, ⟨4, 5⟩, ⟨5, 3⟩, ⟨5, 4⟩, ⟨5, 5⟩] := by
  refine ⟨?_, by decide, by decide, by decide⟩
  intro b p s ms hk hf hm
  rcases hk with h | h
  · simp only [Piece.get_available_moves, h, Knight.get_available_moves, hf,
      stepOffsets] at hm ⊢
    obtain ⟨ms', hms', hlen, hmem⟩ := stepMoves_spec b p.player s knightJumps
    rw [hms'] at hm
    obtain rfl : ms' = ms := by simpa using hm
    exact ⟨hmem, hlen⟩
  · simp only [Piece.get_available_moves, h, King.get_available_moves, hf,
      stepOffsets] at hm ⊢
    obtain ⟨ms', hms', hlen, hmem⟩ := stepMoves_spec b p.player s kingDirections
    rw [hms'] at hm
    obtain rfl : ms' = ms := by simpa using hm
    exact ⟨hmem, hlen⟩

/-- Witness for C3: the knight-at-(0,0) instance of the characterization,
evaluated at the emitted square (1,2). -/
theorem C3_stepping_moves_witness :
    (⟨1, 2⟩ : Square) ∈ ([⟨1, 2⟩, ⟨2, 1⟩] : List Square) ↔
      ∃ o ∈ stepOffsets PieceKind.Knight,
        (⟨1, 2⟩ : Square) = ⟨(⟨0, 0⟩ : Square).row + o.1, (⟨0, 0⟩ : Square).col + o.2⟩ ∧
        bounds_ok (⟨1, 2⟩ : Square).row (⟨1, 2⟩ : Square).col ∧
        can_land (Board.empty.set_piece ⟨0, 0⟩ ⟨0, .Knight, .WHITE⟩) Player.WHITE ⟨1, 2⟩ :=
  ((C3_stepping_moves.1 (Board.empty.set_piece ⟨0, 0⟩ ⟨0, .Knight, .WHITE⟩)
    ⟨0, .Knight, .WHITE⟩ ⟨0, 0⟩ [⟨1, 2⟩, ⟨2, 1⟩] (Or.inl rfl) (by decide) (by decide)).1) ⟨1, 2⟩

/-! ## No-self-square claim (C10) -/

/-- Shape of a pawn's results: same column, one or two rows ahead. -/
theorem pawn_moves_shape (b : Board) (p : Piece) (s : Square) (ms : List Square)
    (hk : p.kind = .Pawn) (hf : b.find_piece p = .ok s)
    (hm : p.get_available_moves b = .ok ms) :
    ∀ t ∈ ms, t.col = s.col ∧
      (t.row = s.row + pawn_direction p.player ∨
       t.row = s.row + 2 * pawn_direction p.player) := by
  simp only [pawn_direction]
  simp only [Piece.get_available_moves, hk, Pawn.get_available_moves, hf] at hm
  generalize hd : (if p.player = Player.WHITE then (1 : Int) else -1) = d at hm ⊢
  cases hat : Square.at (s.row + d) s.col with
  | error e => rw [hat] at hm; simp at hm
  | ok one' =>
    obtain ⟨rfl, hb1⟩ := Square.at_ok_inv hat
    simp only [hat] at hm
    by_cases h1 : b.get_piece ⟨s.row + d, s.col⟩ = none
    · rw [if_pos h1] at hm
      by_cases h2 : s.row = (if p.player = Player.WHITE then (1 : Int) else 6)
      · rw [if_pos h2] at hm
        cases hat2 : Square.at (s.row + 2 * d) s.col with
        | error e => rw [hat2] at hm; simp at hm
        | ok two' =>
          obtain ⟨rfl, hb2⟩ := Square.at_ok_inv hat2
          simp only [hat2] at hm
          by_cases h3 : b.get_piece ⟨s.row + 2 * d, s.col⟩ = none
          · rw [if_pos h3] at hm
            obtain rfl : [(⟨s.row + d, s.col⟩ : Square), ⟨s.row + 2 * d, s.col⟩] = ms := by
              simpa using hm
            intro t ht
            rcases List.mem_cons.mp ht with rfl | ht
            · exact ⟨rfl, Or.inl rfl⟩
            · rcases List.mem_singleton.mp ht with rfl
              exact ⟨rfl, Or.inr rfl⟩
          · rw [if_neg h3] at hm
            obtain rfl : [(⟨s.row + d, s.col⟩ : Square)] = ms := by simpa using hm
            intro t ht
            rcases List.mem_singleton.mp ht with rfl
            exact ⟨rfl, Or.inl rfl⟩
      · rw [if_neg h2] at hm
        obtain rfl : [(⟨s.row + d, s.col⟩ : Square)] = ms := by simpa using hm
        intro t ht
        rcases List.mem_singleton.mp ht with rfl
        exact ⟨rfl, Or.inl rfl⟩
    · rw [if_neg h1] at hm
      obtain rfl : ([] : List Square) = ms := by simpa using hm
      intro t ht
      simp at ht

/-- C10: no piece's `get_available_moves` result contains the piece's own
current square. -/
theorem C10_no_self_square (b : Board) (p : Piece) (s : Square) (ms : List Square)
    (hf : b.find_piece p = .ok s) (hm : p.get_available_moves b = .ok ms) :
    s ∉ ms := by
  intro hs
  cases hk : p.kind
  case Pawn =>
    obtain ⟨-, hrow⟩ := pawn_moves_shape b p s ms hk hf hm s hs
    have hdz := pawn_direction_ne_zero p.player
    omega
  case Knight =>
    simp only [Piece.get_available_moves, hk, Knight.get_available_moves, hf] at hm
    obtain ⟨ms', hms', -, hmem⟩ := stepMoves_spec b p.player s knightJumps
    rw [hms'] at hm
    obtain rfl : ms' = ms := by simpa using hm
    obtain ⟨o, ho, heq, -, -⟩ := (hmem s).mp hs
    have h1 := congrArg Square.row heq
    have h2 := congrArg Square.col heq
    simp only [knightJumps, List.mem_cons, List.not_mem_nil, or_false] at ho
    rcases ho with rfl | rfl | rfl | rfl | rfl | rfl | rfl | rfl <;>
      dsimp only at h1 h2 <;> omega
  case King =>
    simp only [Piece.get_available_moves, hk, King.get_available_moves, hf] at hm
    obtain ⟨ms', hms', -, hmem⟩ := stepMoves_spec b p.player s kingDirections
    rw [hms'] at hm
    obtain rfl : ms' = ms := by simpa using hm
    obtain ⟨o, ho, heq, -, -⟩ := (hmem s).mp hs
    have h1 := congrArg Square.row heq
    have h2 := congrArg Square.col heq
    simp only [kingDirections, List.mem_cons, List.not_mem_nil, or_false] at ho
    rcases ho with rfl | rfl | rfl | rfl | rfl | rfl | rfl | rfl <;>
      dsimp only at h1 h2 <;> omega
  case Bishop =>
    have hgam := sliding_gam (Or.inl hk) b
    simp only [hgam, hf] at hm
    obtain ⟨d, hd, w, hw, hmw⟩ := slideAll_sound b p.player s _ ms hm s hs
    obtain ⟨k, hk1, -, heq, -, -, -⟩ :=
      slideWalk_sound b p.player d.1 d.2 8 s.row s.col w hw s hmw
    exact ray_ne_start (slideDirections_sub hd) hk1 heq.symm
  case Rook =>
    have hgam := sliding_gam (Or.inr (Or.inl hk)) b
    simp only [hgam, hf] at hm
    obtain ⟨d, hd, w, hw, hmw⟩ := slideAll_sound b p.player s _ ms hm s hs
    obtain ⟨k, hk1, -, heq, -, -, -⟩ :=
      slideWalk_sound b p.player d.1 d.2 8 s.row s.col w hw s hmw
    exact ray_ne_start (slideDirections_sub hd) hk1 heq.symm
  case Queen =>
    have hgam := sliding_gam (Or.inr (Or.inr hk)) b
    simp only [hgam, hf] at hm
    obtain ⟨d, hd, w, hw, hmw⟩ := slideAll_sound b p.player s _ ms hm s hs
    obtain ⟨k, hk1, -, heq, -, -, -⟩ :=
      slideWalk_sound b p.player d.1 d.2 8 s.row s.col w hw s hmw
    exact ray_ne_start (slideDirections_sub hd) hk1 heq.symm

/-- Witness for C10: the knight at (0,0) does not list (0,0) among its
moves. -/
theorem C10_no_self_square_witness :
    (⟨0, 0⟩ : Square) ∉ ([⟨1, 2⟩, ⟨2, 1⟩] : List Square) :=
  C10_no_self_square (Board.empty.set_piece ⟨0, 0⟩ ⟨0, .Knight, .WHITE⟩)
    ⟨0, .Knight, .WHITE⟩ ⟨0, 0⟩ [⟨1, 2⟩, ⟨2, 1⟩] (by decide) (by decide)

/-! ## Bounds claim (C5) -/

/-- A pawn's query succeeds with on-board results whenever its one-step square
is on the board. -/
theorem pawn_gam_ok (b : Board) (p : Piece) (s : Square)
    (hk : p.kind = .Pawn) (hf : b.find_piece p = .ok s)
    (hx : bounds_ok (s.row + pawn_direction p.player) s.col) :
    ∃ ms, p.get_available_moves b = .ok ms ∧ ∀ t ∈ ms, bounds_ok t.row t.col := by
  simp only [pawn_direction] at hx
  simp only [Piece.get_available_moves, hk, Pawn.get_available_moves, hf]
  generalize hd : (if p.player = Player.WHITE then (1 : Int) else -1) = d at hx ⊢
  simp only [Square.at_ok hx]
  by_cases h1 : b.get_piece ⟨s.row + d, s.col⟩ = none
  · rw [if_pos h1]
    by_cases h2 : s.row = (if p.player = Player.WHITE then (1 : Int) else 6)
    · rw [if_pos h2]
      have hb2 : bounds_ok (s.row + 2 * d) s.col := by
        cases hpl : p.player <;> rw [hpl] at hd h2 <;> simp at hd h2 <;>
          unfold bounds_ok at hx ⊢ <;> omega
      simp only [Square.at_ok hb2]
      by_cases h3 : b.get_piece ⟨s.row + 2 * d, s.col⟩ = none
      · rw [if_pos h3]
        refine ⟨_, rfl, ?_⟩
        intro t ht
        rcases List.mem_cons.mp ht with rfl | ht
        · exact hx
        · rcases List.mem_singleton.mp ht with rfl
          exact hb2
      · rw [if_neg h3]
        refine ⟨_, rfl, ?_⟩
        intro t ht
        rcases List.mem_singleton.mp ht with rfl
        exact hx
    · rw [if_neg h2]
      refine ⟨_, rfl, ?_⟩
      intro t ht
      rcases List.mem_singleton.mp ht with rfl
      exact hx
  · rw [if_neg h1]
    exact ⟨[], rfl, by simp⟩

/-- C5 (amended): for every piece on the board — except a pawn standing on its
extreme forward row — `get_available_moves` completes without error and every
resulting square is on the board. -/
theorem C5_moves_in_bounds (b : Board) (p : Piece) (s : Square)
    (hf : b.find_piece p = .ok s)
    (hp : p.kind = .Pawn →
      ¬((p.player = .WHITE ∧ s.row = 7) ∨ (p.player = .BLACK ∧ s.row = 0))) :
    ∃ ms, p.get_available_moves b = .ok ms ∧ ∀ t ∈ ms, bounds_ok t.row t.col := by
  have hsb := (find_piece_ok hf).1
  cases hk : p.kind
  case Pawn =>
    apply pawn_gam_ok b p s hk hf
    have hx := hp hk
    unfold bounds_ok at hsb ⊢
    unfold pawn_direction
    cases hpl : p.player <;> rw [hpl] at hx <;> simp at hx ⊢ <;> omega
  case Knight =>
    simp only [Piece.get_available_moves, hk, Knight.get_available_moves, hf]
    obtain ⟨ms, hms, -, hmem⟩ := stepMoves_spec b p.player s knightJumps
    refine ⟨ms, hms, fun t ht => ?_⟩
    obtain ⟨o, -, -, hb, -⟩ := (hmem t).mp ht
    exact hb
  case King =>
    simp only [Piece.get_available_moves, hk, King.get_available_moves, hf]
    obtain ⟨ms, hms, -, hmem⟩ := stepMoves_spec b p.player s kingDirections
    refine ⟨ms, hms, fun t ht => ?_⟩
    obtain ⟨o, -, -, hb, -⟩ := (hmem t).mp ht
    exact hb
  case Bishop =>
    simp only [sliding_gam (Or.inl hk) b, hf]
    exact slideAll_ok b p.player s _
  case Rook =>
    simp only [sliding_gam (Or.inr (Or.inl hk)) b, hf]
    exact slideAll_ok b p.player s _
  case Queen =>
    simp only [sliding_gam (Or.inr (Or.inr hk)) b, hf]
    exact slideAll_ok b p.player s _

/-- Counterexample to C5 as stated: a white pawn on its extreme forward row
(7,0) is on the board, yet `get_available_moves` raises `OutOfBoundsError`
instead of completing without error. -/
theorem C5_claim_counterexample :
    (Board.empty.set_piece ⟨7, 0⟩ ⟨0, .Pawn, .WHITE⟩).find_piece ⟨0, .Pawn, .WHITE⟩ =
      .ok ⟨7, 0⟩ ∧
    Piece.get_available_moves ⟨0, .Pawn, .WHITE⟩
      (Board.empty.set_piece ⟨7, 0⟩ ⟨0, .Pawn, .WHITE⟩) = .error .OutOfBoundsError := by
  decide

/-- Witness for C5 (amended): a white pawn at (6,0) — not on row 7 — does not
raise `OutOfBoundsError`. -/
theorem C5_moves_in_bounds_witness :
    Piece.get_available_moves ⟨0, .Pawn, .WHITE⟩
      (Board.empty.set_piece ⟨6, 0⟩ ⟨0, .Pawn, .WHITE⟩) ≠ .error .OutOfBoundsError := by
  obtain ⟨ms, hms, -⟩ := C5_moves_in_bounds
    (Board.empty.set_piece ⟨6, 0⟩ ⟨0, .Pawn, .WHITE⟩) ⟨0, .Pawn, .WHITE⟩ ⟨6, 0⟩
    (by decide) (by decide)
  rw [hms]
  simp

/-! ## Sliding claim (C1) -/

/-- C1: for every sliding piece and every direction in its set, the walk
emits the `k`-th ray square when the path to it is clear and it is empty
(and keeps walking, so this holds for every such `k`); emits a hostile
occupant's square and nothing beyond it; and emits neither a friendly
occupant's square nor anything beyond it. -/
theorem C1_sliding_emission (b : Board) (p : Piece) (s : Square) (ms : List Square)
    (hkind : p.kind = .Bishop ∨ p.kind = .Rook ∨ p.kind = .Queen)
    (hf : b.find_piece p = .ok s)
    (hmoves : p.get_available_moves b = .ok ms)
    (d : Int × Int) (hd : d ∈ slideDirections p.kind)
    (k : Nat) (hk1 : 1 ≤ k)
    (hpath : ∀ j : Nat, 1 ≤ j → j < k →
      bounds_ok (s.row + j * d.1) (s.col + j * d.2) ∧
      b.get_piece ⟨s.row + j * d.1, s.col + j * d.2⟩ = none)
    (hin : bounds_ok (s.row + k * d.1) (s.col + k * d.2)) :
    (b.get_piece ⟨s.row + k * d.1, s.col + k * d.2⟩ = none →
      (⟨s.row + k * d.1, s.col + k * d.2⟩ : Square) ∈ ms) ∧
    (∀ q, b.get_piece ⟨s.row + k * d.1, s.col + k * d.2⟩ = some q →
      q.player ≠ p.player →
      (⟨s.row + k * d.1, s.col + k * d.2⟩ : Square) ∈ ms ∧
      ∀ m : Nat, k < m → (⟨s.row + m * d.1, s.col + m * d.2⟩ : Square) ∉ ms) ∧
    (∀ q, b.get_piece ⟨s.row + k * d.1, s.col + k * d.2⟩ = some q →
      q.player = p.player →
      ∀ m : Nat, k ≤ m → (⟨s.row + m * d.1, s.col + m * d.2⟩ : Square) ∉ ms) := by
  simp only [sliding_gam hkind b, hf] at hmoves
  have hdq : d ∈ queenDirections := slideDirections_sub hd
  have hsb : bounds_ok s.row s.col := (find_piece_ok hf).1
  have hk7 : k ≤ 7 := ray_le_seven hdq hsb hin
  obtain ⟨w, hw, hwb⟩ := slideWalk_ok b p.player d.1 d.2 8 s.row s.col
  have hemit : can_land b p.player ⟨s.row + k * d.1, s.col + k * d.2⟩ →
      (⟨s.row + k * d.1, s.col + k * d.2⟩ : Square) ∈ ms := by
    intro hcl
    have hmemw := slideWalk_complete b p.player d.1 d.2 k 8 s.row s.col hk1
      (by omega) hpath hin hcl w hw
    exact slideAll_complete b p.player s _ ms hmoves d hd w hw _ hmemw
  have hblock : ∀ q, b.get_piece ⟨s.row + k * d.1, s.col + k * d.2⟩ = some q →
      ∀ m : Nat, k < m ∨ (k = m ∧ q.player = p.player) →
      (⟨s.row + m * d.1, s.col + m * d.2⟩ : Square) ∉ ms := by
    intro q hq m hcase habs
    obtain ⟨d', hd', w', hw', hmw'⟩ := slideAll_sound b p.player s _ ms hmoves _ habs
    obtain ⟨k', hk1', -, heq, hpath', -, hcl'⟩ :=
      slideWalk_sound b p.player d'.1 d'.2 8 s.row s.col w' hw' _ hmw'
    have hm1 : 1 ≤ m := by omega
    obtain ⟨hdd, hmk⟩ := ray_inj hdq (slideDirections_sub hd') hm1 hk1' heq
    subst hdd
    subst hmk
    rcases hcase with hlt | ⟨rfl, hfr⟩
    · have := (hpath' k hk1 hlt).2
      rw [hq] at this
      cases this
    · rcases hcl' with hnone | ⟨q', hq', hne⟩
      · rw [hq] at hnone; cases hnone
      · rw [hq] at hq'
        obtain rfl : q = q' := by injection hq'
        exact hne hfr
  refine ⟨fun hempty => hemit (Or.inl hempty), fun q hq hne => ?_, fun q hq hfr m hkm => ?_⟩
  · refine ⟨hemit (Or.inr ⟨q, hq, hne⟩), fun m hlt => hblock q hq m (Or.inl hlt)⟩
  · rcases Nat.lt_or_ge k m with hlt | hge
    · exact hblock q hq m (Or.inl hlt)
    · have : k = m := by omega
      subst this
      exact hblock q hq k (Or.inr ⟨rfl, hfr⟩)

/-- Witness for C1: a white bishop at (4,4) with a black pawn at (6,6) emits
the hostile square (6,6) and nothing beyond it on that diagonal. -/
theorem C1_sliding_emission_witness :
    (⟨6, 6⟩ : Square) ∈ ([⟨3, 3⟩, ⟨2, 2⟩, ⟨1, 1⟩, ⟨0, 0⟩, ⟨3, 5⟩, ⟨2, 6⟩, ⟨1, 7⟩,
      ⟨5, 3⟩, ⟨6, 2⟩, ⟨7, 1⟩, ⟨5, 5⟩, ⟨6, 6⟩] : List Square) ∧
    (⟨7, 7⟩ : Square) ∉ ([⟨3, 3⟩, ⟨2, 2⟩, ⟨1, 1⟩, ⟨0, 0⟩, ⟨3, 5⟩, ⟨2, 6⟩, ⟨1, 7⟩,
      ⟨5, 3⟩, ⟨6, 2⟩, ⟨7, 1⟩, ⟨5, 5⟩, ⟨6, 6⟩] : List Square) := by
  have H := (C1_sliding_emission
    ((Board.empty.set_piece ⟨4, 4⟩ ⟨0, .Bishop, .WHITE⟩).set_piece ⟨6, 6⟩ ⟨1, .Pawn, .BLACK⟩)
    ⟨0, .Bishop, .WHITE⟩ ⟨4, 4⟩
    [⟨3, 3⟩, ⟨2, 2⟩, ⟨1, 1⟩, ⟨0, 0⟩, ⟨3, 5⟩, ⟨2, 6⟩, ⟨1, 7⟩,
      ⟨5, 3⟩, ⟨6, 2⟩, ⟨7, 1⟩, ⟨5, 5⟩, ⟨6, 6⟩]
    (Or.inl rfl) (by decide) (by decide) (1, 1) (by decide) 2 (by decide)
    (fun j h1 h2 => by
      have hj : j = 1 := by omega
      subst hj
      exact ⟨by decide, by decide⟩)
    (by decide)).2.1 ⟨1, .Pawn, .BLACK⟩ (by decide) (by decide)
  constructor
  · exact H.1
  · exact H.2 3 (by omega)

/-! ## Queen-union claim (C4) -/

/-- `set_piece` leaves every other square's occupant unchanged. -/
theorem get_set_ne (b : Board) (s t : Square) (x : Piece) (h : t ≠ s) :
    (b.set_piece s x).get_piece t = b.get_piece t := by
  simp [Board.set_piece, Board.get_piece, h]

/-- Walks agree on boards that agree away from a square no ray square ever
reaches. -/
theorem slideWalk_congr (b1 b2 : Board) (pl : Player) (dr dc : Int) (s0 : Square)
    (hagree : ∀ t : Square, t ≠ s0 → b1.get_piece t = b2.get_piece t) :
    ∀ fuel r c, (∀ k : Nat, 1 ≤ k → (⟨r + k * dr, c + k * dc⟩ : Square) ≠ s0) →
      slideWalk b1 pl dr dc fuel r c = slideWalk b2 pl dr dc fuel r c := by
  intro fuel
  induction fuel with
  | zero => intro r c _; rfl
  | succ fuel ih =>
    intro r c hray
    by_cases hb : bounds_ok (r + dr) (c + dc)
    · have hne : (⟨r + dr, c + dc⟩ : Square) ≠ s0 := by
        have h1 := hray 1 (le_refl 1)
        simpa using h1
      have hrec : slideWalk b1 pl dr dc fuel (r + dr) (c + dc) =
          slideWalk b2 pl dr dc fuel (r + dr) (c + dc) := by
        apply ih
        intro k hk
        have hk1 := hray (k + 1) (by omega)
        have hsh : (⟨r + dr + (k : Int) * dr, c + dc + (k : Int) * dc⟩ : Square) =
            ⟨r + ((k + 1 : Nat) : Int) * dr, c + ((k + 1 : Nat) : Int) * dc⟩ := by
          simp only [Square.mk.injEq]
          constructor <;> push_cast <;> ring
        rw [hsh]
        exact hk1
      rw [slideWalk, slideWalk, if_pos hb, if_pos hb, Square.at_ok hb]
      simp only [hagree _ hne, hrec]
    · rw [slideWalk, slideWalk, if_neg hb, if_neg hb]

/-- `slideAll` from a square agrees on boards that agree away from that
square, for directions drawn from the queen's set. -/
theorem slideAll_congr (b1 b2 : Board) (pl : Player) (s0 : Square)
    (hagree : ∀ t : Square, t ≠ s0 → b1.get_piece t = b2.get_piece t) :
    ∀ dirs : List (Int × Int), (∀ d ∈ dirs, d ∈ queenDirections) →
      slideAll b1 pl s0 dirs = slideAll b2 pl s0 dirs := by
  intro dirs
  induction dirs with
  | nil => intro _; rfl
  | cons d rest ih =>
    intro hsub
    obtain ⟨dr, dc⟩ := d
    have hwalk := slideWalk_congr b1 b2 pl dr dc s0 hagree 8 s0.row s0.col
      (fun k hk => ray_ne_start (hsub (dr, dc) (List.mem_cons_self _ _)) hk)
    rw [slideAll, slideAll, hwalk, ih (fun d' hd' => hsub d' (List.mem_cons_of_mem _ hd'))]

/-- C4: a queen's moves are exactly the union of the moves a rook and a bishop
of the same player would have from the same square on the same board (the
queen replaced by the rook or bishop); the move list is even the rook's list
followed by the bishop's. -/
theorem C4_queen_union (b : Board) (pl : Player) (iq ir ib : Nat) (s : Square)
    (hq : b.find_piece ⟨iq, .Queen, pl⟩ = .ok s)
    (hr : (b.set_piece s ⟨ir, .Rook, pl⟩).find_piece ⟨ir, .Rook, pl⟩ = .ok s)
    (hb : (b.set_piece s ⟨ib, .Bishop, pl⟩).find_piece ⟨ib, .Bishop, pl⟩ = .ok s) :
    ∃ mq mr mb,
      Piece.get_available_moves ⟨iq, .Queen, pl⟩ b = .ok mq ∧
      Piece.get_available_moves ⟨ir, .Rook, pl⟩ (b.set_piece s ⟨ir, .Rook, pl⟩) = .ok mr ∧
      Piece.get_available_moves ⟨ib, .Bishop, pl⟩ (b.set_piece s ⟨ib, .Bishop, pl⟩) = .ok mb ∧
      mq = mr ++ mb ∧
      ∀ t, t ∈ mq ↔ (t ∈ mr ∨ t ∈ mb) := by
  have hagree_r : ∀ t : Square, t ≠ s →
      (b.set_piece s ⟨ir, .Rook, pl⟩).get_piece t = b.get_piece t :=
    fun t ht => get_set_ne b s t _ ht
  have hagree_b : ∀ t : Square, t ≠ s →
      (b.set_piece s ⟨ib, .Bishop, pl⟩).get_piece t = b.get_piece t :=
    fun t ht => get_set_ne b s t _ ht
  obtain ⟨mr, hmr, -⟩ := slideAll_ok b pl s rookDirections
  obtain ⟨mb, hmb, -⟩ := slideAll_ok b pl s bishopDirections
  refine ⟨mr ++ mb, mr, mb, ?_, ?_, ?_, rfl, fun t => List.mem_append⟩
  · simp only [Piece.get_available_moves, Queen.get_available_moves, hq]
    rw [queen_eq_rook_append_bishop]
    exact slideAll_append b pl s rookDirections bishopDirections mr mb hmr hmb
  · simp only [Piece.get_available_moves, Rook.get_available_moves, hr]
    rw [slideAll_congr _ b pl s hagree_r rookDirections (fun d hd => rook_sub_queen hd)]
    exact hmr
  · simp only [Piece.get_available_moves, Bishop.get_available_moves, hb]
    rw [slideAll_congr _ b pl s hagree_b bishopDirections (fun d hd => bishop_sub_queen hd)]
    exact hmb

/-- Witness for C4: the queen at (4,4) on an empty board splits into the rook
and bishop move lists. -/
theorem C4_queen_union_witness :
    Piece.get_available_moves ⟨0, .Queen, .WHITE⟩
      (Board.empty.set_piece ⟨4, 4⟩ ⟨0, .Queen, .WHITE⟩) ≠ .ok [] := by
  obtain ⟨mq, mr, mb, hmq, hmr, hmb, happ, hiff⟩ :=
    C4_queen_union (Board.empty.set_piece ⟨4, 4⟩ ⟨0, .Queen, .WHITE⟩) Player.WHITE
      0 1 2 ⟨4, 4⟩ (by decide) (by decide) (by decide)
  have hconc : Piece.get_available_moves ⟨0, .Queen, .WHITE⟩
      (Board.empty.set_piece ⟨4, 4⟩ ⟨0, .Queen, .WHITE⟩) =
      .ok [⟨3, 4⟩, ⟨2, 4⟩, ⟨1, 4⟩, ⟨0, 4⟩, ⟨5, 4⟩, ⟨6, 4⟩, ⟨7, 4⟩,
        ⟨4, 3⟩, ⟨4, 2⟩, ⟨4, 1⟩, ⟨4, 0⟩, ⟨4, 5⟩, ⟨4, 6⟩, ⟨4, 7⟩,
        ⟨3, 3⟩, ⟨2, 2⟩, ⟨1, 1⟩, ⟨0, 0⟩, ⟨3, 5⟩, ⟨2, 6⟩, ⟨1, 7⟩,
        ⟨5, 3⟩, ⟨6, 2⟩, ⟨7, 1⟩, ⟨5, 5⟩, ⟨6, 6⟩, ⟨7, 7⟩] := by decide
  rw [hmq] at hconc
  obtain rfl : mq = _ := by simpa using hconc
  rw [hmq]
  simp

/-! ## Frame claims (C8, C9) -/

/-- The threaded stepping loop returns the state unchanged and the pure
result. -/
theorem stepMovesS_eq (pl : Player) (cs : Square) :
    ∀ (offs : List (Int × Int)) (st : Board × Piece),
      stepMovesS pl cs offs st = (stepMoves st.1 pl cs offs, st) := by
  intro offs
  induction offs with
  | nil => intro st; rfl
  | cons o rest ih =>
    intro st
    obtain ⟨dr, dc⟩ := o
    rw [stepMovesS, stepMoves]
    by_cases hb : bounds_ok (cs.row + dr) (cs.col + dc)
    · rw [if_pos hb, if_pos hb]
      cases hat : Square.at (cs.row + dr) (cs.col + dc) with
      | error e => simp only []
      | ok target =>
        simp only [ih st, get_pieceS]
        cases hrec : stepMoves st.1 pl cs rest with
        | error e => simp only []
        | ok ms =>
          cases hocc : st.1.get_piece target with
          | none => simp only [hocc]
          | some q => by_cases hq : q.player ≠ pl <;> simp [hq, hocc]
    · rw [if_neg hb, if_neg hb]
      exact ih st

/-- The threaded sliding walk returns the state unchanged and the pure
result. -/
theorem slideWalkS_eq (pl : Player) (dr dc : Int) :
    ∀ (fuel : Nat) (r c : Int) (st : Board × Piece),
      slideWalkS pl dr dc fuel r c st = (slideWalk st.1 pl dr dc fuel r c, st) := by
  intro fuel
  induction fuel with
  | zero => intro r c st; rfl
  | succ fuel ih =>
    intro r c st
    rw [slideWalkS, slideWalk]
    by_cases hb : bounds_ok (r + dr) (c + dc)
    · rw [if_pos hb, if_pos hb]
      cases hat : Square.at (r + dr) (c + dc) with
      | error e => simp only []
      | ok target =>
        simp only [get_pieceS]
        cases hocc : st.1.get_piece target with
        | none =>
          simp only [ih (r + dr) (c + dc) st]
          cases hrec : slideWalk st.1 pl dr dc fuel (r + dr) (c + dc) with
          | error e => simp only []
          | ok rest => simp only []
        | some q => by_cases hq : q.player ≠ pl <;> simp [hq]
    · rw [if_neg hb, if_neg hb]

/-- The threaded sliding loop returns the state unchanged and the pure
result. -/
theorem slideAllS_eq (pl : Player) (cs : Square) :
    ∀ (dirs : List (Int × Int)) (st : Board × Piece),
      slideAllS pl cs dirs st = (slideAll st.1 pl cs dirs, st) := by
  intro dirs
  induction dirs with
  | nil => intro st; rfl
  | cons d rest ih =>
    intro st
    obtain ⟨dr, dc⟩ := d
    rw [slideAllS, slideAll]
    simp only [slideWalkS_eq pl dr dc 8 cs.row cs.col st]
    cases hw : slideWalk st.1 pl dr dc 8 cs.row cs.col with
    | error e => simp only []
    | ok ms =>
      simp only [ih st]
      cases hrest : slideAll st.1 pl cs rest with
      | error e => simp only []
      | ok ms2 => simp only []

/-- The threaded pawn rule returns the state unchanged and the pure result. -/
theorem pawn_gamS_eq (st : Board × Piece) :
    pawn_get_available_movesS st = (Pawn.get_available_moves st.2 st.1, st) := by
  rw [pawn_get_available_movesS, Pawn.get_available_moves]
  simp only [find_pieceS]
  cases hf : st.1.find_piece st.2 with
  | error e => simp only []
  | ok cs =>
    simp only [get_pieceS]
    cases hat : Square.at (cs.row + if st.2.player = .WHITE then 1 else -1) cs.col with
    | error e => simp only [hat]
    | ok one_forward =>
      simp only [hat]
      cases hocc : st.1.get_piece one_forward with
      | some q => simp [hocc]
      | none =>
        simp only [hocc, if_true]
        by_cases hrow : cs.row = (if st.2.player = .WHITE then (1 : Int) else 6)
        · rw [if_pos hrow, if_pos hrow]
          cases hat2 : Square.at (cs.row + 2 * if st.2.player = .WHITE then 1 else -1)
              cs.col with
          | error e => simp only [hat2]
          | ok two_forward =>
            simp only [hat2]
            cases hocc2 : st.1.get_piece two_forward with
            | some q => simp [hocc2]
            | none =>
              simp only [hocc2, if_true]
        · rw [if_neg hrow, if_neg hrow]

/-- The threaded generator returns the state unchanged and the pure result. -/
theorem gamS_eq (st : Board × Piece) :
    get_available_movesS st = (st.2.get_available_moves st.1, st) := by
  obtain ⟨b, p⟩ := st
  rw [get_available_movesS, Piece.get_available_moves]
  cases hk : p.kind
  case Pawn => exact pawn_gamS_eq (b, p)
  case Knight =>
    simp only [find_pieceS, Knight.get_available_moves]
    cases hf : Board.find_piece b p with
    | error e => simp only []
    | ok cs => exact stepMovesS_eq p.player cs knightJumps (b, p)
  case King =>
    simp only [find_pieceS, King.get_available_moves]
    cases hf : Board.find_piece b p with
    | error e => simp only []
    | ok cs => exact stepMovesS_eq p.player cs kingDirections (b, p)
  case Bishop =>
    simp only [find_pieceS, Bishop.get_available_moves]
    cases hf : Board.find_piece b p with
    | error e => simp only []
    | ok cs => exact slideAllS_eq p.player cs bishopDirections (b, p)
  case Rook =>
    simp only [find_pieceS, Rook.get_available_moves]
    cases hf : Board.find_piece b p with
    | error e => simp only []
    | ok cs => exact slideAllS_eq p.player cs rookDirections (b, p)
  case Queen =>
    simp only [find_pieceS, Queen.get_available_moves]
    cases hf : Board.find_piece b p with
    | error e => simp only []
    | ok cs => exact slideAllS_eq p.player cs queenDirections (b, p)

/-- C8: `get_available_moves` mutates neither the board nor the piece: run in
the state-threaded embedding, it returns the pure query's value, and the final
state — board occupancy (square by square) and piece — is the input state. -/
theorem C8_no_mutation (b : Board) (p : Piece) :
    (get_available_movesS (b, p)).1 = p.get_available_moves b ∧
    (get_available_movesS (b, p)).2.1 = b ∧
    (get_available_movesS (b, p)).2.2 = p ∧
    ∀ sq, (get_available_movesS (b, p)).2.1.get_piece sq = b.get_piece sq := by
  rw [gamS_eq]
  exact ⟨rfl, rfl, rfl, fun sq => rfl⟩

/-- C9: two consecutive `get_available_moves` calls with no intervening board
mutation — the second runs on the state the first returned — yield identical
results. -/
theorem C9_idempotent_queries (b : Board) (p : Piece) (s : Square)
    (_hf : b.find_piece p = .ok s) :
    (get_available_movesS (b, p)).1 =
      (get_available_movesS ((get_available_movesS (b, p)).2)).1 := by
  simp only [gamS_eq]

/-- Witness for C9: the knight at (0,0), queried twice in a row. -/
theorem C9_idempotent_queries_witness :
    (get_available_movesS (Board.empty.set_piece ⟨0, 0⟩ ⟨0, .Knight, .WHITE⟩,
      (⟨0, .Knight, .WHITE⟩ : Piece))).1 =
    (get_available_movesS ((get_available_movesS
      (Board.empty.set_piece ⟨0, 0⟩ ⟨0, .Knight, .WHITE⟩,
        (⟨0, .Knight, .WHITE⟩ : Piece))).2)).1 :=
  C9_idempotent_queries (Board.empty.set_piece ⟨0, 0⟩ ⟨0, .Knight, .WHITE⟩)
    ⟨0, .Knight, .WHITE⟩ ⟨0, 0⟩ (by decide)
